import Mathlib

/-!
# Verification of the wavemutator waveform buffer engine

A shallow embedding of `src/wavemutator.js` (the waveform buffer engine of the
wavemutator repository) together with proofs about its specification claims.

Modelling conventions:

* JavaScript numbers are modelled as real numbers (`ℝ`); `Math.sin` is `Real.sin`
  and `Math.PI` is `Real.pi`.
* A sample buffer (the channel data of a Web Audio `AudioBuffer`, a
  `Float32Array`) is a `List ℝ`.
* `Math.random` is modelled by a stream `rnd : ℕ → ℝ` of draws, the `i`-th loop
  iteration consuming draw `rnd i`; the Web Audio / JS contract guarantees each
  draw lies in `[0, 1)`.
* An in-place loop `for (i = 0; i < buffer.length; i++) buffer[i] = body(buffer, i)`
  is a fold over `List.range buffer.length` updating the list with `List.set`;
  the body reads the *current* (partially updated) buffer, exactly as in JS.
* `webaudio.createBuffer(1, length, sampleRate)` receives `length` through a
  WebIDL `unsigned long` coercion, which truncates a positive float toward zero:
  the allocated sample count is `⌊length⌋`.  The generator's write loops run an
  index `i` up to the float bound `i < length`; writes at indices beyond the
  allocated length of a `Float32Array` are silently dropped, so the effective
  buffer holds exactly the first `⌊length⌋` generated samples.
-/

noncomputable section

/-- `fitRange(value, min, max)` from wavemutator.js: clamp `value` into
`[min, max]`. -/
def fitRange (value min max : ℝ) : ℝ :=
  if value < min then min
  else if value > max then max
  else value

/-- The in-place mutation loop shared by every function in the `mutations`
namespace of wavemutator.js:
`for (var i = 0; i < buffer.length; i++) buffer[i] = body(buffer, i)`.
The body reads the current, partially updated buffer, as in JS. -/
def mutateLoop (body : List ℝ → ℕ → ℝ) (buffer : List ℝ) : List ℝ :=
  (List.range buffer.length).foldl (fun b i => b.set i (body b i)) buffer

/-- `mutations.sinify(buffer, amount)`:
`value += Math.sin(period * i) * 0.01 * amount` with
`period = 2 * Math.PI / buffer.length` (computed before the loop; the length
never changes during the loop), then clamped. -/
def sinify (buffer : List ℝ) (amount : ℝ) : List ℝ :=
  mutateLoop (fun b i =>
    fitRange (b.getD i 0
      + Real.sin (2 * Real.pi / buffer.length * i) * 0.01 * amount) (-1) 1)
    buffer

/-- `mutations.squarify(buffer, amount)`: add `0.01*amount` on the first half
(`i < buffer.length / 2`), subtract it on the second half, then clamp. -/
def squarify (buffer : List ℝ) (amount : ℝ) : List ℝ :=
  mutateLoop (fun b i =>
    fitRange (if (i : ℝ) < (buffer.length : ℝ) / 2 then b.getD i 0 + 0.01 * amount
              else b.getD i 0 - 0.01 * amount) (-1) 1) buffer

/-- `mutations.peakify(buffer, amount)`:
`value = buffer[i] - i * 0.0001 * amount`, then clamped. -/
def peakify (buffer : List ℝ) (amount : ℝ) : List ℝ :=
  mutateLoop (fun b i =>
    fitRange (b.getD i 0 - i * 0.0001 * amount) (-1) 1) buffer

/-- `mutations.nullify(buffer, amount)`: move each sample `0.01*amount`
toward zero (subtract if positive, add if negative), then clamp. -/
def nullify (buffer : List ℝ) (amount : ℝ) : List ℝ :=
  mutateLoop (fun b i =>
    fitRange (if b.getD i 0 > 0 then b.getD i 0 - 0.01 * amount
              else if b.getD i 0 < 0 then b.getD i 0 + 0.01 * amount
              else b.getD i 0) (-1) 1) buffer

/-- `mutations.offsettify(buffer, amount)`:
`value = buffer[i] += 0.01 * amount`, then clamped (the intermediate unclamped
write to `buffer[i]` is immediately overwritten by the clamped value). -/
def offsettify (buffer : List ℝ) (amount : ℝ) : List ℝ :=
  mutateLoop (fun b i =>
    fitRange (b.getD i 0 + 0.01 * amount) (-1) 1) buffer

/-- `mutations.smoothify(buffer)`:
`buffer[i] = (prev + value + next) / 3` with circular neighbours
`prev = buffer[(buffer.length + i - 1) % buffer.length]` and
`next = buffer[(i + 1) % buffer.length]`, no clamping, no `amount`.
Because the loop is in place, `prev` reads an already-updated sample for
`i ≥ 1`, and `next` reads the updated sample `0` at the last index.
(`buffer.length` is invariant during the loop, so the outer length is used.) -/
def smoothify (buffer : List ℝ) : List ℝ :=
  mutateLoop (fun b i =>
    (b.getD ((buffer.length + i - 1) % buffer.length) 0 + b.getD i 0
      + b.getD ((i + 1) % buffer.length) 0) / 3) buffer

/-- `mutations.noisify(buffer, amount)`:
`value = buffer[i] + (Math.random() * 0.02 * amount) - 0.01 * amount`, clamped. -/
def noisify (buffer : List ℝ) (amount : ℝ) (rnd : ℕ → ℝ) : List ℝ :=
  mutateLoop (fun b i =>
    fitRange (b.getD i 0 + (rnd i * 0.02 * amount) - 0.01 * amount) (-1) 1) buffer

/-- `mutations.randomizify(buffer)`: `buffer[i] = Math.random() * 2 - 1`,
not clamped. -/
def randomizify (buffer : List ℝ) (rnd : ℕ → ℝ) : List ℝ :=
  mutateLoop (fun _ i => rnd i * 2 - 1) buffer

/-- The keys of the `mutations` dispatch object in wavemutator.js. -/
inductive MutationKind
  | sinify | squarify | peakify | nullify | offsettify | smoothify | noisify
  | randomizify
  deriving DecidableEq

/-- `mutations[kind](buffer, amount)`: dispatch on the selected mutation.
Operators that call `Math.random` consume the stream `rnd`. -/
def applyMutation (kind : MutationKind) (buffer : List ℝ) (amount : ℝ)
    (rnd : ℕ → ℝ) : List ℝ :=
  match kind with
  | .sinify => sinify buffer amount
  | .squarify => squarify buffer amount
  | .peakify => peakify buffer amount
  | .nullify => nullify buffer amount
  | .offsettify => offsettify buffer amount
  | .smoothify => smoothify buffer
  | .noisify => noisify buffer amount rnd
  | .randomizify => randomizify buffer rnd

/-- The wave types understood by `audioBuffer` in wavemutator.js; every other
`type` string falls through to the `default` (sine) branch. -/
inductive WaveKind
  | saw | square | noise | sine
  deriving DecidableEq

/-- `audioBuffer(freq, type)` from wavemutator.js.  `length` is the float
`webaudio.sampleRate / freq`; `createBuffer` truncates it to `⌊length⌋`
samples (`⌊32 * length⌋` for noise, which allocates `32 * length`).  The
sample formulas use the float `length`, not the truncated sample count. -/
def audioBuffer (sampleRate freq : ℝ) (type : WaveKind) (rnd : ℕ → ℝ) :
    List ℝ :=
  let length : ℝ := sampleRate / freq
  match type with
  | .saw =>
      (List.range (⌊length⌋.toNat)).map (fun (i : ℕ) => 1 - 2 * (i : ℝ) / length)
  | .square =>
      (List.range (⌊length⌋.toNat)).map
        (fun (i : ℕ) => if (i : ℝ) < length / 2 then 1 else -1)
  | .noise =>
      (List.range (⌊32 * length⌋.toNat)).map (fun (i : ℕ) => rnd i * 2 - 1)
  | .sine =>
      let period := 2 * Real.pi / length
      (List.range (⌊length⌋.toNat)).map (fun (i : ℕ) => Real.sin (period * (i : ℝ)))

/-- A constant all-zero `Math.random` stream used as a concrete instance in
witnesses (none of the witnessed facts depend on the draws). -/
def rndZero : ℕ → ℝ := fun _ => 0

section ListHelpers

variable {α : Type _}

/-- `getD` at the written index of a `set`. -/
theorem getD_set_self (l : List α) (i : ℕ) (a d : α) (h : i < l.length) :
    (l.set i a).getD i d = a := by
  induction l generalizing i with
  | nil => simp at h
  | cons x xs ih =>
      cases i with
      | zero => simp
      | succ n =>
          simpa [List.getD_cons_succ] using ih n (by simpa using h)

/-- `getD` away from the written index of a `set`. -/
theorem getD_set_ne (l : List α) (i j : ℕ) (a d : α) (h : i ≠ j) :
    (l.set i a).getD j d = l.getD j d := by
  simp [List.getD_eq_getElem?_getD, List.getElem?_set_ne h]

/-- Writing back the value already stored leaves the list unchanged. -/
theorem set_getD_self (l : List α) (i : ℕ) (d : α) (h : i < l.length) :
    l.set i (l.getD i d) = l := by
  induction l generalizing i with
  | nil => simp
  | cons x xs ih =>
      cases i with
      | zero => simp
      | succ n =>
          simpa [List.getD_cons_succ] using ih n (by simpa using h)

/-- A `getD` value is a member of the list or the default. -/
theorem getD_mem_or_eq (l : List α) (i : ℕ) (d : α) :
    l.getD i d ∈ l ∨ l.getD i d = d := by
  rcases lt_or_le i l.length with h | h
  · exact Or.inl (by rw [List.getD_eq_getElem _ _ h]; exact List.getElem_mem h)
  · exact Or.inr (List.getD_eq_default _ _ h)

end ListHelpers

section MutateLoopLemmas

/-- The in-place mutation loop never changes the buffer length. -/
theorem foldl_set_length (body : List ℝ → ℕ → ℝ) (idxs : List ℕ)
    (b : List ℝ) :
    (idxs.foldl (fun b i => b.set i (body b i)) b).length = b.length := by
  induction idxs generalizing b with
  | nil => rfl
  | cons i is ih => simpa using (ih (b.set i (body b i))).trans (by simp)

theorem mutateLoop_length (body : List ℝ → ℕ → ℝ) (buffer : List ℝ) :
    (mutateLoop body buffer).length = buffer.length :=
  foldl_set_length body _ buffer

/-- If the loop body always produces values satisfying `P` (given that the
current buffer satisfies `P` everywhere), the loop preserves `P`. -/
theorem foldl_set_forall (P : ℝ → Prop) (body : List ℝ → ℕ → ℝ)
    (hbody : ∀ b : List ℝ, (∀ x ∈ b, P x) → ∀ i, P (body b i))
    (idxs : List ℕ) (b : List ℝ) (hb : ∀ x ∈ b, P x) :
    ∀ x ∈ idxs.foldl (fun b i => b.set i (body b i)) b, P x := by
  induction idxs generalizing b with
  | nil => exact hb
  | cons i is ih =>
      refine ih (b.set i (body b i)) ?_
      intro x hx
      rcases List.mem_or_eq_of_mem_set hx with hx | rfl
      · exact hb x hx
      · exact hbody b hb i

theorem mutateLoop_forall (P : ℝ → Prop) (body : List ℝ → ℕ → ℝ)
    (hbody : ∀ b : List ℝ, (∀ x ∈ b, P x) → ∀ i, P (body b i))
    (buffer : List ℝ) (hb : ∀ x ∈ buffer, P x) :
    ∀ x ∈ mutateLoop body buffer, P x :=
  foldl_set_forall P body hbody _ buffer hb

/-- If every step writes back the value already stored, the loop is the
identity. -/
theorem mutateLoop_id (body : List ℝ → ℕ → ℝ) (buffer : List ℝ)
    (hbody : ∀ i, i < buffer.length → body buffer i = buffer.getD i 0) :
    mutateLoop body buffer = buffer := by
  have aux : ∀ idxs : List ℕ, (∀ i ∈ idxs, i < buffer.length) →
      idxs.foldl (fun b i => b.set i (body b i)) buffer = buffer := by
    intro idxs
    induction idxs with
    | nil => intro _; rfl
    | cons i is ih =>
        intro h
        have hi : i < buffer.length := h i (by simp)
        have : buffer.set i (body buffer i) = buffer := by
          rw [hbody i hi]; exact set_getD_self buffer i 0 hi
        simpa [this] using ih (fun j hj => h j (by simp [hj]))
  exact aux (List.range buffer.length) (by simp)

/-- Pointwise characterisation: when the loop body at index `i` depends only on
the current value at index `i` (and on the buffer length, which is invariant),
the result at index `j` is the body applied to the original value at `j`. -/
theorem mutateLoop_getD (body : List ℝ → ℕ → ℝ) (g : ℕ → ℝ → ℝ)
    (buffer : List ℝ)
    (hbody : ∀ b : List ℝ, b.length = buffer.length → ∀ i, i < buffer.length →
      body b i = g i (b.getD i 0)) :
    ∀ j, j < buffer.length →
      (mutateLoop body buffer).getD j 0 = g j (buffer.getD j 0) := by
  have aux : ∀ k : ℕ,
      ((List.range k).foldl (fun b i => b.set i (body b i)) buffer).length
          = buffer.length ∧
      (∀ j, j < buffer.length → j < k →
        ((List.range k).foldl (fun b i => b.set i (body b i)) buffer).getD j 0
          = g j (buffer.getD j 0)) ∧
      (∀ j, k ≤ j →
        ((List.range k).foldl (fun b i => b.set i (body b i)) buffer).getD j 0
          = buffer.getD j 0) := by
    intro k
    induction k with
    | zero => exact ⟨rfl, fun j _ h => absurd h (Nat.not_lt_zero j), fun j _ => rfl⟩
    | succ k ih =>
        obtain ⟨ihlen, ihlt, ihge⟩ := ih
        set bk := (List.range k).foldl (fun b i => b.set i (body b i)) buffer
          with hbk
        have hstep : (List.range (k+1)).foldl (fun b i => b.set i (body b i))
            buffer = bk.set k (body bk k) := by
          rw [List.range_succ, List.foldl_append]; rfl
        refine ⟨by rw [hstep]; simpa using ihlen, ?_, ?_⟩
        · intro j hj hjk
          rw [hstep]
          rcases Nat.lt_or_ge j k with hlt | hge
          · rw [getD_set_ne _ _ _ _ _ (Nat.ne_of_gt hlt)]
            exact ihlt j hj hlt
          · have hjek : j = k := Nat.le_antisymm (Nat.lt_succ_iff.mp hjk) hge
            subst hjek
            rw [getD_set_self _ _ _ _ (by rw [ihlen]; exact hj)]
            rw [hbody bk ihlen j hj, ihge j le_rfl]
        · intro j hj
          rw [hstep, getD_set_ne _ _ _ _ _ (by omega)]
          exact ihge j (by omega)
  intro j hj
  exact (aux buffer.length).2.1 j hj hj

/-- `fitRange` into `[-1, 1]` always lands in `[-1, 1]`. -/
theorem fitRange_mem (v : ℝ) : -1 ≤ fitRange v (-1) 1 ∧ fitRange v (-1) 1 ≤ 1 := by
  unfold fitRange
  split_ifs with h1 h2 <;> constructor <;> linarith

/-- `fitRange` is the identity on values already in `[min, max]`. -/
theorem fitRange_eq_self (v lo hi : ℝ) (h1 : lo ≤ v) (h2 : v ≤ hi) :
    fitRange v lo hi = v := by
  unfold fitRange
  split_ifs with ha hb <;> first | rfl | linarith

end MutateLoopLemmas

section RangeInvariant

/-- Values read from a buffer whose members are all in `[-1, 1]` are in
`[-1, 1]` (the `getD` default `0` also is). -/
theorem getD_range (b : List ℝ) (hb : ∀ x ∈ b, -1 ≤ x ∧ x ≤ 1) (i : ℕ) :
    -1 ≤ b.getD i 0 ∧ b.getD i 0 ≤ 1 := by
  rcases getD_mem_or_eq b i 0 with h | h
  · exact hb _ h
  · rw [h]; norm_num

/-- C1.  For every mutation operator, every input buffer with samples in
`[-1, 1]` and every (finite, i.e. real) `amount`, the output buffer has the
same length and all its samples lie in `[-1, 1]`.  The clamped operators land
in range by `fitRange`; `smoothify` averages in-range values; `randomizify`
writes `Math.random() * 2 - 1 ∈ [-1, 1)`. -/
theorem mutation_preserves_length_and_range (kind : MutationKind)
    (buffer : List ℝ) (amount : ℝ) (rnd : ℕ → ℝ)
    (hbuf : ∀ x ∈ buffer, -1 ≤ x ∧ x ≤ 1)
    (hrnd : ∀ k, 0 ≤ rnd k ∧ rnd k < 1) :
    (applyMutation kind buffer amount rnd).length = buffer.length ∧
      ∀ x ∈ applyMutation kind buffer amount rnd, -1 ≤ x ∧ x ≤ 1 := by
  cases kind with
  | sinify =>
      exact ⟨mutateLoop_length _ _,
        mutateLoop_forall _ _ (fun c _ i => fitRange_mem _) _ hbuf⟩
  | squarify =>
      exact ⟨mutateLoop_length _ _,
        mutateLoop_forall _ _ (fun c _ i => fitRange_mem _) _ hbuf⟩
  | peakify =>
      exact ⟨mutateLoop_length _ _,
        mutateLoop_forall _ _ (fun c _ i => fitRange_mem _) _ hbuf⟩
  | nullify =>
      exact ⟨mutateLoop_length _ _,
        mutateLoop_forall _ _ (fun c _ i => fitRange_mem _) _ hbuf⟩
  | offsettify =>
      exact ⟨mutateLoop_length _ _,
        mutateLoop_forall _ _ (fun c _ i => fitRange_mem _) _ hbuf⟩
  | smoothify =>
      refine ⟨mutateLoop_length _ _, mutateLoop_forall _ _ ?_ _ hbuf⟩
      intro c hc i
      have h1 := getD_range c hc ((buffer.length + i - 1) % buffer.length)
      have h2 := getD_range c hc i
      have h3 := getD_range c hc ((i + 1) % buffer.length)
      constructor <;> [linarith [h1.1, h2.1, h3.1]; linarith [h1.2, h2.2, h3.2]]
  | noisify =>
      exact ⟨mutateLoop_length _ _,
        mutateLoop_forall _ _ (fun c _ i => fitRange_mem _) _ hbuf⟩
  | randomizify =>
      refine ⟨mutateLoop_length _ _, mutateLoop_forall _ _ ?_ _ hbuf⟩
      intro c _ i
      have := hrnd i
      constructor <;> linarith [this.1, this.2]

/-- Witness for C1 at a concrete instance. -/
theorem mutation_preserves_length_and_range_witness :
    (∀ x ∈ ([0] : List ℝ), -1 ≤ x ∧ x ≤ 1) ∧
      ((applyMutation MutationKind.offsettify [0] 1 rndZero).length
          = ([0] : List ℝ).length ∧
        ∀ x ∈ applyMutation MutationKind.offsettify [0] 1 rndZero,
          -1 ≤ x ∧ x ≤ 1) :=
  ⟨by intro x hx; simp at hx; simp [hx],
    mutation_preserves_length_and_range MutationKind.offsettify [0] 1 rndZero
      (by intro x hx; simp at hx; simp [hx])
      (by intro k; simp [rndZero])⟩

end RangeInvariant

section AmountZero

/-- C10.  With `amount = 0`, each of the amount-scaled operators `sinify`,
`squarify`, `peakify`, `nullify`, `offsettify` maps a buffer with samples in
`[-1, 1]` to itself: the additive increment vanishes and the clamp is the
identity on in-range values. -/
theorem amount_zero_identity (buffer : List ℝ)
    (hbuf : ∀ x ∈ buffer, -1 ≤ x ∧ x ≤ 1) :
    sinify buffer 0 = buffer ∧ squarify buffer 0 = buffer ∧
      peakify buffer 0 = buffer ∧ nullify buffer 0 = buffer ∧
      offsettify buffer 0 = buffer := by
  have hget : ∀ i, i < buffer.length →
      -1 ≤ buffer.getD i 0 ∧ buffer.getD i 0 ≤ 1 :=
    fun i _ => getD_range buffer hbuf i
  refine ⟨?_, ?_, ?_, ?_, ?_⟩
  · refine mutateLoop_id _ _ (fun i hi => ?_)
    simp only [mul_zero, add_zero]
    exact fitRange_eq_self _ _ _ (hget i hi).1 (hget i hi).2
  · refine mutateLoop_id _ _ (fun i hi => ?_)
    simp only [mul_zero, add_zero, sub_zero, ite_self]
    exact fitRange_eq_self _ _ _ (hget i hi).1 (hget i hi).2
  · refine mutateLoop_id _ _ (fun i hi => ?_)
    simp only [mul_zero, sub_zero]
    exact fitRange_eq_self _ _ _ (hget i hi).1 (hget i hi).2
  · refine mutateLoop_id _ _ (fun i hi => ?_)
    simp only [mul_zero, add_zero, sub_zero, ite_self]
    exact fitRange_eq_self _ _ _ (hget i hi).1 (hget i hi).2
  · refine mutateLoop_id _ _ (fun i hi => ?_)
    simp only [mul_zero, add_zero]
    exact fitRange_eq_self _ _ _ (hget i hi).1 (hget i hi).2

/-- Witness for C10 at a concrete buffer. -/
theorem amount_zero_identity_witness :
    (∀ x ∈ ([0] : List ℝ), -1 ≤ x ∧ x ≤ 1) ∧
      (sinify [0] 0 = [0] ∧ squarify [0] 0 = [0] ∧ peakify [0] 0 = [0] ∧
        nullify [0] 0 = [0] ∧ offsettify [0] 0 = [0]) :=
  ⟨by intro x hx; simp at hx; simp [hx],
    amount_zero_identity [0] (by intro x hx; simp at hx; simp [hx])⟩

end AmountZero

section Offsettify

/-- C7.  `offsettify` adds `0.01 * amount` to every sample and clamps the
result into `[-1, 1]`; with `amount = 5` and an in-range input buffer, each
sample becomes `min (sample + 0.05) 1` (only the upper clamp can fire). -/
theorem offsettify_adds_and_clamps (buffer : List ℝ) (amount : ℝ) (i : ℕ)
    (hi : i < buffer.length) :
    (offsettify buffer amount).getD i 0
        = fitRange (buffer.getD i 0 + 0.01 * amount) (-1) 1 ∧
      ((∀ x ∈ buffer, -1 ≤ x ∧ x ≤ 1) →
        (offsettify buffer 5).getD i 0 = min (buffer.getD i 0 + 0.05) 1) := by
  have hpt : ∀ a : ℝ, (offsettify buffer a).getD i 0
      = fitRange (buffer.getD i 0 + 0.01 * a) (-1) 1 := by
    intro a
    exact mutateLoop_getD _ (fun j v => fitRange (v + 0.01 * a) (-1) 1) buffer
      (fun c _ j _ => rfl) i hi
  refine ⟨hpt amount, fun hbuf => ?_⟩
  have hv := getD_range buffer hbuf i
  rw [hpt 5, show (0.01 : ℝ) * 5 = 0.05 by norm_num]
  rcases le_or_lt (buffer.getD i 0 + 0.05) 1 with h | h
  · rw [fitRange_eq_self _ _ _ (by linarith [hv.1]) h, min_eq_left h]
  · rw [min_eq_right (le_of_lt h)]
    unfold fitRange
    rw [if_neg (by linarith [hv.1]), if_pos h]

/-- Witness for C7 at a concrete instance. -/
theorem offsettify_adds_and_clamps_witness :
    (0 < ([0.98] : List ℝ).length) ∧
      ((offsettify [0.98] 5).getD 0 0
          = fitRange (([0.98] : List ℝ).getD 0 0 + 0.01 * 5) (-1) 1 ∧
        ((∀ x ∈ ([0.98] : List ℝ), -1 ≤ x ∧ x ≤ 1) →
          (offsettify [0.98] 5).getD 0 0
            = min (([0.98] : List ℝ).getD 0 0 + 0.05) 1)) :=
  ⟨by norm_num, offsettify_adds_and_clamps [0.98] 5 0 (by norm_num)⟩

end Offsettify

section Generator

/-- Reading a mapped range list below its length. -/
theorem getD_map_range (f : ℕ → ℝ) (n i : ℕ) (h : i < n) :
    ((List.range n).map f).getD i 0 = f i := by
  rw [List.getD_eq_getElem _ _ (by simpa using h)]
  simp

theorem length_map_range (f : ℕ → ℝ) (n : ℕ) :
    ((List.range n).map f).length = n := by
  rw [List.length_map, List.length_range]

/-- Unfolding `audioBuffer` at each wave kind. -/
theorem audioBuffer_saw (sampleRate freq : ℝ) (rnd : ℕ → ℝ) :
    audioBuffer sampleRate freq WaveKind.saw rnd
      = (List.range ((⌊sampleRate / freq⌋).toNat)).map
          (fun (i : ℕ) => 1 - 2 * (i : ℝ) / (sampleRate / freq)) := rfl

theorem audioBuffer_square (sampleRate freq : ℝ) (rnd : ℕ → ℝ) :
    audioBuffer sampleRate freq WaveKind.square rnd
      = (List.range ((⌊sampleRate / freq⌋).toNat)).map
          (fun (i : ℕ) => if (i : ℝ) < (sampleRate / freq) / 2 then 1 else -1) := rfl

theorem audioBuffer_noise (sampleRate freq : ℝ) (rnd : ℕ → ℝ) :
    audioBuffer sampleRate freq WaveKind.noise rnd
      = (List.range ((⌊32 * (sampleRate / freq)⌋).toNat)).map
          (fun (i : ℕ) => rnd i * 2 - 1) := rfl

theorem audioBuffer_sine (sampleRate freq : ℝ) (rnd : ℕ → ℝ) :
    audioBuffer sampleRate freq WaveKind.sine rnd
      = (List.range ((⌊sampleRate / freq⌋).toNat)).map
          (fun (i : ℕ) => Real.sin (2 * Real.pi / (sampleRate / freq) * (i : ℝ))) := rfl

/-- The truncated sample count is at most the float length. -/
theorem toNat_floor_le (L : ℝ) (h : 0 ≤ L) : ((⌊L⌋.toNat : ℝ)) ≤ L := by
  have h1 : ((⌊L⌋.toNat : ℤ) : ℝ) ≤ L := by
    rw [Int.toNat_of_nonneg (Int.floor_nonneg.mpr h)]
    exact Int.floor_le L
  exact_mod_cast h1

/-- C2 (amended).  For every wave kind and positive frequency
`freq ≤ sampleRate / 2`, the generated buffer has `⌊sampleRate / freq⌋`
samples (`⌊32 * (sampleRate / freq)⌋` for noise) — the float length is
truncated by `createBuffer`, not rounded — and every sample lies in
`[-1, 1]`. -/
theorem generate_length_floor_and_range (sampleRate freq : ℝ)
    (kind : WaveKind) (rnd : ℕ → ℝ) (hf : 0 < freq)
    (hhalf : freq ≤ sampleRate / 2) (hrnd : ∀ k, 0 ≤ rnd k ∧ rnd k < 1) :
    (audioBuffer sampleRate freq kind rnd).length =
      (match kind with
       | WaveKind.noise => (⌊32 * (sampleRate / freq)⌋).toNat
       | _ => (⌊sampleRate / freq⌋).toNat) ∧
    ∀ s ∈ audioBuffer sampleRate freq kind rnd, -1 ≤ s ∧ s ≤ 1 := by
  have hsr : 0 < sampleRate := by linarith
  have hL : 0 < sampleRate / freq := div_pos hsr hf
  cases kind with
  | saw =>
      rw [audioBuffer_saw]
      refine ⟨length_map_range _ _, ?_⟩
      intro s hs
      rw [List.mem_map] at hs
      obtain ⟨i, hi, rfl⟩ := hs
      rw [List.mem_range] at hi
      have hiL : (i : ℝ) < sampleRate / freq :=
        lt_of_lt_of_le (by exact_mod_cast hi) (toNat_floor_le _ hL.le)
      have hcast : (0 : ℝ) ≤ (i : ℝ) := Nat.cast_nonneg i
      have hnn : 0 ≤ 2 * (i : ℝ) / (sampleRate / freq) :=
        div_nonneg (by linarith) hL.le
      have hub : 2 * (i : ℝ) / (sampleRate / freq) ≤ 2 := by
        rw [div_le_iff₀ hL]; linarith
      constructor <;> linarith
  | square =>
      rw [audioBuffer_square]
      refine ⟨length_map_range _ _, ?_⟩
      intro s hs
      rw [List.mem_map] at hs
      obtain ⟨i, hi, rfl⟩ := hs
      split_ifs <;> norm_num
  | noise =>
      rw [audioBuffer_noise]
      refine ⟨length_map_range _ _, ?_⟩
      intro s hs
      rw [List.mem_map] at hs
      obtain ⟨i, hi, rfl⟩ := hs
      have := hrnd i
      constructor <;> linarith [this.1, this.2]
  | sine =>
      rw [audioBuffer_sine]
      refine ⟨length_map_range _ _, ?_⟩
      intro s hs
      rw [List.mem_map] at hs
      obtain ⟨i, hi, rfl⟩ := hs
      exact ⟨Real.neg_one_le_sin _, Real.sin_le_one _⟩

/-- Witness for C2 at a concrete instance. -/
theorem generate_length_floor_and_range_witness :
    ((0 : ℝ) < 8 ∧ (8 : ℝ) ≤ 44100 / 2 ∧ (∀ k, 0 ≤ rndZero k ∧ rndZero k < 1)) ∧
      ((audioBuffer 44100 8 WaveKind.saw rndZero).length
          = (⌊(44100 : ℝ) / 8⌋).toNat ∧
        ∀ s ∈ audioBuffer 44100 8 WaveKind.saw rndZero, -1 ≤ s ∧ s ≤ 1) :=
  ⟨⟨by norm_num, by norm_num, by intro k; simp [rndZero]⟩,
    generate_length_floor_and_range 44100 8 WaveKind.saw rndZero
      (by norm_num) (by norm_num) (by intro k; simp [rndZero])⟩

/-- Counterexample to C2 as stated: at `sampleRate = 44100`, `freq = 8`
(`sampleRate / freq = 5512.5`), the generated buffer has `5512` samples while
`round(sampleRate / freq) = 5513`. -/
theorem generate_length_not_round :
    (audioBuffer 44100 8 WaveKind.square rndZero).length = 5512 ∧
      (round ((44100 : ℝ) / 8)).toNat = 5513 := by
  have hq : (44100 : ℝ) / 8 = 5512.5 := by norm_num
  constructor
  · have hfl : ⌊(44100 : ℝ) / 8⌋ = 5512 := by
      rw [hq]
      apply Int.floor_eq_iff.mpr
      constructor <;> norm_num
    rw [audioBuffer_square, length_map_range, hfl]
    rfl
  · have hr : round ((44100 : ℝ) / 8) = 5513 := by
      rw [round_eq, hq]
      have h1 : (5512.5 : ℝ) + 1 / 2 = 5513 := by norm_num
      rw [h1]
      apply Int.floor_eq_iff.mpr
      constructor <;> norm_num
    rw [hr]
    rfl

/-- C6 (amended).  A generated square buffer has sample `+1` exactly at the
indices `i < (sampleRate / freq) / 2` — the threshold is half the *float*
length `sampleRate / freq`, not half the truncated sample count — and `-1` at
the other indices; a generated sine buffer has sample `0` at index `0`. -/
theorem square_shape_and_sine_zero (sampleRate freq : ℝ) (rnd : ℕ → ℝ) (i : ℕ)
    (hi : i < (audioBuffer sampleRate freq WaveKind.square rnd).length) :
    (((i : ℝ) < sampleRate / freq / 2 →
        (audioBuffer sampleRate freq WaveKind.square rnd).getD i 0 = 1) ∧
      (sampleRate / freq / 2 ≤ (i : ℝ) →
        (audioBuffer sampleRate freq WaveKind.square rnd).getD i 0 = -1)) ∧
    (audioBuffer sampleRate freq WaveKind.sine rnd).getD 0 0 = 0 := by
  have hlen : (audioBuffer sampleRate freq WaveKind.square rnd).length
      = (⌊sampleRate / freq⌋).toNat := by
    rw [audioBuffer_square, length_map_range]
  have hsq : (audioBuffer sampleRate freq WaveKind.square rnd).getD i 0
      = if (i : ℝ) < sampleRate / freq / 2 then 1 else -1 := by
    rw [hlen] at hi
    rw [audioBuffer_square]
    exact getD_map_range
      (fun j => if (j : ℝ) < sampleRate / freq / 2 then 1 else -1) _ i hi
  refine ⟨⟨fun h => by rw [hsq, if_pos h],
    fun h => by rw [hsq, if_neg (not_lt.mpr h)]⟩, ?_⟩
  rcases Nat.eq_zero_or_pos ((⌊sampleRate / freq⌋).toNat) with h0 | hpos
  · rw [List.getD_eq_default]
    rw [audioBuffer_sine, length_map_range, h0]
  · have hs0 : (audioBuffer sampleRate freq WaveKind.sine rnd).getD 0 0
        = Real.sin (2 * Real.pi / (sampleRate / freq) * ((0 : ℕ) : ℝ)) := by
      rw [audioBuffer_sine]
      exact getD_map_range
        (fun j => Real.sin (2 * Real.pi / (sampleRate / freq) * j)) _ 0 hpos
    rw [hs0]
    norm_num

/-- Witness for C6 at a concrete instance. -/
theorem square_shape_and_sine_zero_witness :
    (0 < (audioBuffer 9 2 WaveKind.square rndZero).length) ∧
      ((((0 : ℕ) : ℝ) < 9 / 2 / 2 →
          (audioBuffer 9 2 WaveKind.square rndZero).getD 0 0 = 1) ∧
        ((9 : ℝ) / 2 / 2 ≤ ((0 : ℕ) : ℝ) →
          (audioBuffer 9 2 WaveKind.square rndZero).getD 0 0 = -1)) ∧
      (audioBuffer 9 2 WaveKind.sine rndZero).getD 0 0 = 0 := by
  have hfl : ⌊(9 : ℝ) / 2⌋ = 4 := by
    apply Int.floor_eq_iff.mpr
    constructor <;> norm_num
  have hlen : (audioBuffer 9 2 WaveKind.square rndZero).length = 4 := by
    rw [audioBuffer_square, length_map_range, hfl]
    rfl
  have h0 : 0 < (audioBuffer 9 2 WaveKind.square rndZero).length := by
    rw [hlen]; norm_num
  exact ⟨h0, square_shape_and_sine_zero 9 2 rndZero 0 h0⟩

/-- Counterexample to C6 as stated: at `sampleRate = 9`, `freq = 2` the square
buffer has `4` samples, and the sample at index `2 ≥ 4 / 2` is `+1`, not `-1`
(the code's threshold is the float `4.5 / 2 = 2.25`, not `length / 2 = 2`). -/
theorem square_boundary_cex :
    (audioBuffer 9 2 WaveKind.square rndZero).length = 4 ∧
      (audioBuffer 9 2 WaveKind.square rndZero).getD 2 0 = 1 := by
  have hfl : ⌊(9 : ℝ) / 2⌋ = 4 := by
    apply Int.floor_eq_iff.mpr
    constructor <;> norm_num
  have hlen : (audioBuffer 9 2 WaveKind.square rndZero).length = 4 := by
    rw [audioBuffer_square, length_map_range, hfl]
    rfl
  refine ⟨hlen, ?_⟩
  have h2 : (audioBuffer 9 2 WaveKind.square rndZero).getD 2 0
      = if ((2 : ℕ) : ℝ) < 9 / 2 / 2 then 1 else -1 := by
    rw [audioBuffer_square]
    exact getD_map_range (fun j => if (j : ℝ) < 9 / 2 / 2 then (1 : ℝ) else -1)
      _ 2 (by rw [hfl]; norm_num)
  rw [h2, if_pos (by norm_num)]

end Generator

section MutateCycle

/-- The mutable audio state relevant to `mutateBuffer`: a heap of allocated
`AudioBuffer`s (each represented by its channel data) addressed by allocation
index, and `current`, the index of the buffer the playing source node
(`audio.buffer`) is bound to. -/
structure AudioState where
  buffers : List (List ℝ)
  current : ℕ

/-- `mutateBuffer()` from wavemutator.js, as a transition on `AudioState`:

* `var data = audio.buffer.getChannelData(0)` — an *aliased view* of the
  channel array of the currently playing buffer, not a copy;
* `newBuffer = webaudio.createBuffer(1, data.length, ...)` — allocate a fresh
  zero-filled buffer;
* `mutations[$('#mutation').val()](data, amount)` — the mutation runs in place
  on `data`, i.e. it rewrites the live buffer's channel array (`heap2`);
* `newBuffer.copyToChannel(data, 0, 0)` — copy the (now mutated) samples into
  the fresh buffer (`heap3`);
* `newBufferSource(newBuffer)` — install the fresh buffer as current.

The mutation kind and the `amount` (`$('#mutation-amount').val() - 20`) come
from the UI and are parameters here. -/
def mutateBuffer (kind : MutationKind) (amount : ℝ) (rnd : ℕ → ℝ)
    (s : AudioState) : AudioState :=
  let data := s.buffers.getD s.current []
  let newIdx := s.buffers.length
  let heap1 := s.buffers ++ [List.replicate data.length 0]
  let mutated := applyMutation kind data amount rnd
  let heap2 := heap1.set s.current mutated
  let heap3 := heap2.set newIdx mutated
  ⟨heap3, newIdx⟩

/-- Counterexample to C3 as stated: one mutation cycle with `offsettify`,
`amount = 5` on a live buffer `[0, 0]` rewrites that very buffer (heap cell 0
becomes `[0.05, 0.05]`): the mutation is applied in place to the playing
buffer's channel data, not only to a fresh copy. -/
theorem mutate_writes_live_buffer :
    (mutateBuffer MutationKind.offsettify 5 rndZero ⟨[[0, 0]], 0⟩).buffers.getD 0 []
      ≠ (([[0, 0]] : List (List ℝ))).getD 0 [] := by
  have hm : offsettify [0, 0] 5 = [0.05, 0.05] := by
    show mutateLoop _ _ = _
    have hr : List.range ([(0 : ℝ), 0].length) = [0, 1] := rfl
    rw [mutateLoop, hr]
    norm_num [fitRange]
  intro hcontra
  rw [show (mutateBuffer MutationKind.offsettify 5 rndZero ⟨[[0, 0]], 0⟩).buffers
      = (([[0, 0], [0, 0]] : List (List ℝ)).set 0 (offsettify [0, 0] 5)).set 1
          (offsettify [0, 0] 5) from rfl, hm] at hcontra
  simp at hcontra
  norm_num at hcontra

/-- C3 (amended).  Each mutation cycle installs a *freshly allocated* buffer
(its index is new, distinct from the old current index) holding the mutated
samples, and the heap grows by exactly one buffer; however the cycle also
rewrites the previously playing buffer's channel data in place with the same
mutated samples (mutate-then-copy, not copy-then-mutate). -/
theorem mutate_cycle_fresh_copy_install (kind : MutationKind) (amount : ℝ)
    (rnd : ℕ → ℝ) (s : AudioState) (h : s.current < s.buffers.length) :
    (mutateBuffer kind amount rnd s).current = s.buffers.length ∧
    (mutateBuffer kind amount rnd s).current ≠ s.current ∧
    (mutateBuffer kind amount rnd s).buffers.length = s.buffers.length + 1 ∧
    (mutateBuffer kind amount rnd s).buffers.getD
        (mutateBuffer kind amount rnd s).current []
      = applyMutation kind (s.buffers.getD s.current []) amount rnd ∧
    (mutateBuffer kind amount rnd s).buffers.getD s.current []
      = applyMutation kind (s.buffers.getD s.current []) amount rnd := by
  have hcur : (mutateBuffer kind amount rnd s).current = s.buffers.length := rfl
  have hbuf : (mutateBuffer kind amount rnd s).buffers
      = ((s.buffers ++ [List.replicate (s.buffers.getD s.current []).length 0]).set
            s.current (applyMutation kind (s.buffers.getD s.current []) amount rnd)).set
          s.buffers.length
          (applyMutation kind (s.buffers.getD s.current []) amount rnd) := rfl
  refine ⟨rfl, ne_of_gt h, ?_, ?_, ?_⟩
  · rw [hbuf]
    simp
  · rw [hcur, hbuf]
    refine getD_set_self _ _ _ _ ?_
    simp
  · rw [hbuf, getD_set_ne _ _ _ _ _ (ne_of_gt h)]
    refine getD_set_self _ _ _ _ ?_
    simp only [List.length_append, List.length_replicate, List.length_set]
    omega

/-- Witness for C3's amended statement at a concrete state. -/
theorem mutate_cycle_fresh_copy_install_witness :
    ((⟨[[0, 0]], 0⟩ : AudioState).current
        < (⟨[[0, 0]], 0⟩ : AudioState).buffers.length) ∧
      ((mutateBuffer MutationKind.nullify 1 rndZero ⟨[[0, 0]], 0⟩).current
          = ([[0, 0]] : List (List ℝ)).length ∧
        (mutateBuffer MutationKind.nullify 1 rndZero ⟨[[0, 0]], 0⟩).current
          ≠ (⟨[[0, 0]], 0⟩ : AudioState).current ∧
        (mutateBuffer MutationKind.nullify 1 rndZero ⟨[[0, 0]], 0⟩).buffers.length
          = ([[0, 0]] : List (List ℝ)).length + 1 ∧
        (mutateBuffer MutationKind.nullify 1 rndZero ⟨[[0, 0]], 0⟩).buffers.getD
            (mutateBuffer MutationKind.nullify 1 rndZero ⟨[[0, 0]], 0⟩).current []
          = applyMutation MutationKind.nullify
              (([[0, 0]] : List (List ℝ)).getD 0 []) 1 rndZero ∧
        (mutateBuffer MutationKind.nullify 1 rndZero ⟨[[0, 0]], 0⟩).buffers.getD 0 []
          = applyMutation MutationKind.nullify
              (([[0, 0]] : List (List ℝ)).getD 0 []) 1 rndZero) :=
  ⟨by norm_num,
    mutate_cycle_fresh_copy_install MutationKind.nullify 1 rndZero
      ⟨[[0, 0]], 0⟩ (by norm_num)⟩

end MutateCycle

section Install

/-- The observable Web Audio calls made by `newBufferSource(buffer)`. -/
inductive AudioEvent
  | createSource (h : ℕ)
  | setLoop (h : ℕ)
  | connectVolume (h : ℕ)
  | assignBuffer (h : ℕ)
  | startSource (h : ℕ)
  | stopSource (h : ℕ)
  deriving DecidableEq

/-- The event trace of `newBufferSource(buffer)` in wavemutator.js, naming the
new source node `newSource` while `oldSource` identifies the module-level
`audio` node (if one exists): create the node, set `loop = true`, connect it to
the gain node, bind the buffer, `start(0)`, and only then `audio.stop()` when
an old node exists.  (The trace ends with `audio = newAudio`, a pure variable
assignment with no observable audio effect.) -/
def newBufferSourceTrace (oldSource : Option ℕ) (newSource : ℕ) :
    List AudioEvent :=
  [AudioEvent.createSource newSource, AudioEvent.setLoop newSource,
   AudioEvent.connectVolume newSource, AudioEvent.assignBuffer newSource,
   AudioEvent.startSource newSource] ++
  (match oldSource with
   | some h => [AudioEvent.stopSource h]
   | none => [])

/-- Effect of one audio event on the set of started-and-not-stopped (active)
source handles. -/
def applyAudioEvent (active : List ℕ) : AudioEvent → List ℕ
  | AudioEvent.startSource h => h :: active
  | AudioEvent.stopSource h => active.erase h
  | _ => active

/-- The active handles after a trace, starting from `init`. -/
def activeSources (init : List ℕ) (tr : List AudioEvent) : List ℕ :=
  tr.foldl applyAudioEvent init

/-- C4.  Installing over an existing source emits `start(new)` strictly before
`stop(old)` with no event in between, and along every prefix of the install
trace at least one source is active (no silent gap), provided some source was
active before the install. -/
theorem install_starts_new_before_stopping_old (old new_ : ℕ) (init : List ℕ)
    (hinit : init ≠ []) :
    newBufferSourceTrace (some old) new_
        = [AudioEvent.createSource new_, AudioEvent.setLoop new_,
           AudioEvent.connectVolume new_, AudioEvent.assignBuffer new_,
           AudioEvent.startSource new_, AudioEvent.stopSource old] ∧
      ∀ k : ℕ, activeSources init ((newBufferSourceTrace (some old) new_).take k)
          ≠ [] := by
  refine ⟨rfl, ?_⟩
  have herase : (new_ :: init).erase old ≠ [] := by
    rcases init with _ | ⟨x, xs⟩
    · exact absurd rfl hinit
    · by_cases hON : old = new_
      · subst hON
        rw [List.erase_cons_head]
        simp
      · rw [List.erase_cons_tail]
        · simp
        · simpa using fun hcontra => hON (by rw [hcontra])
  intro k
  match k with
  | 0 => simpa [activeSources] using hinit
  | 1 => simpa [activeSources, newBufferSourceTrace, applyAudioEvent] using hinit
  | 2 => simpa [activeSources, newBufferSourceTrace, applyAudioEvent] using hinit
  | 3 => simpa [activeSources, newBufferSourceTrace, applyAudioEvent] using hinit
  | 4 => simpa [activeSources, newBufferSourceTrace, applyAudioEvent] using hinit
  | 5 => simp [activeSources, newBufferSourceTrace, applyAudioEvent]
  | (n + 6) =>
      have htake : (newBufferSourceTrace (some old) new_).take (n + 6)
          = newBufferSourceTrace (some old) new_ :=
        List.take_of_length_le (by simp [newBufferSourceTrace])
      rw [htake]
      simpa [activeSources, newBufferSourceTrace, applyAudioEvent] using herase

/-- Witness for C4 at a concrete old handle, new handle and initial active
set. -/
theorem install_starts_new_before_stopping_old_witness :
    (([0] : List ℕ) ≠ []) ∧
      (newBufferSourceTrace (some 0) 1
          = [AudioEvent.createSource 1, AudioEvent.setLoop 1,
             AudioEvent.connectVolume 1, AudioEvent.assignBuffer 1,
             AudioEvent.startSource 1, AudioEvent.stopSource 0] ∧
        ∀ k : ℕ, activeSources [0] ((newBufferSourceTrace (some 0) 1).take k)
            ≠ []) :=
  ⟨by simp, install_starts_new_before_stopping_old 0 1 [0] (by simp)⟩

end Install

section Scheduler

/-- The mutation scheduler state of wavemutator.js: `mutating` holds the
armed interval (its id and its period in milliseconds) or is `none`
(`undefined` in JS); `cycles` counts executed mutation cycles
(`mutateBuffer()` invocations); `nextId` supplies fresh interval ids. -/
structure SchedulerState where
  mutating : Option (ℕ × ℕ)
  cycles : ℕ
  nextId : ℕ
  deriving DecidableEq

/-- Events driving the scheduler: a click on `#mutate`, or a queued interval
callback firing.  A fire event carries the id of the interval that scheduled
it; `clearInterval` guarantees a cancelled interval's callback never runs, so
a fire only executes `mutateBuffer` when its id is the currently armed one. -/
inductive SchedEvent
  | mutateClick
  | intervalFire (id : ℕ)
  deriving DecidableEq

/-- The `$('#mutate').click` handler and the interval callback:
on click, if `mutating` is set, `clearInterval(mutating)` and clear it;
otherwise run `mutateBuffer()` once immediately and arm
`setInterval(mutateBuffer, 200)`.  An armed interval's fire runs one cycle. -/
def schedStep (s : SchedulerState) : SchedEvent → SchedulerState
  | SchedEvent.mutateClick =>
      match s.mutating with
      | some _ => { s with mutating := none }
      | none =>
          { mutating := some (s.nextId, 200), cycles := s.cycles + 1,
            nextId := s.nextId + 1 }
  | SchedEvent.intervalFire id =>
      match s.mutating with
      | some armed => if armed.1 = id then { s with cycles := s.cycles + 1 } else s
      | none => s

/-- Processing a list of events. -/
def schedRun (s : SchedulerState) (es : List SchedEvent) : SchedulerState :=
  es.foldl schedStep s

/-- After the scheduler is stopped, interval fires never execute a cycle. -/
theorem schedRun_fires_noop (s : SchedulerState) (hs : s.mutating = none)
    (es : List SchedEvent) (hes : ∀ e ∈ es, ∃ id, e = SchedEvent.intervalFire id) :
    schedRun s es = s := by
  induction es with
  | nil => rfl
  | cons e es ih =>
      obtain ⟨id, rfl⟩ := hes e (by simp)
      have hstep : schedStep s (SchedEvent.intervalFire id) = s := by
        rw [schedStep, hs]
      show schedRun (schedStep s (SchedEvent.intervalFire id)) es = s
      rw [hstep]
      exact ih (fun e he => hes e (by simp [he]))

/-- C5.  From an idle scheduler, a `#mutate` click immediately runs exactly one
mutation cycle and arms a fresh 200 ms interval; while armed, each fire of the
armed interval runs one further cycle; a second click cancels the interval
(leaving exactly the one cycle run), and after that no sequence of interval
fires executes any further cycle. -/
theorem scheduler_start_stop_cycles (s : SchedulerState)
    (hidle : s.mutating = none) :
    (schedStep s SchedEvent.mutateClick).cycles = s.cycles + 1 ∧
    (schedStep s SchedEvent.mutateClick).mutating = some (s.nextId, 200) ∧
    (∀ s' : SchedulerState, ∀ id period : ℕ, s'.mutating = some (id, period) →
      (schedStep s' (SchedEvent.intervalFire id)).cycles = s'.cycles + 1) ∧
    (schedRun s [SchedEvent.mutateClick, SchedEvent.mutateClick]).cycles
        = s.cycles + 1 ∧
    (schedRun s [SchedEvent.mutateClick, SchedEvent.mutateClick]).mutating
        = none ∧
    (∀ es : List SchedEvent,
      (∀ e ∈ es, ∃ id, e = SchedEvent.intervalFire id) →
      (schedRun (schedRun s [SchedEvent.mutateClick, SchedEvent.mutateClick]) es).cycles
        = s.cycles + 1) := by
  have hstart : schedStep s SchedEvent.mutateClick
      = { mutating := some (s.nextId, 200), cycles := s.cycles + 1,
          nextId := s.nextId + 1 } := by
    rw [schedStep, hidle]
  have hstop : schedRun s [SchedEvent.mutateClick, SchedEvent.mutateClick]
      = { mutating := none, cycles := s.cycles + 1, nextId := s.nextId + 1 } := by
    show schedStep (schedStep s SchedEvent.mutateClick) SchedEvent.mutateClick = _
    rw [hstart]
    rfl
  refine ⟨by rw [hstart], by rw [hstart], ?_, by rw [hstop], by rw [hstop], ?_⟩
  · intro s' id period hs'
    rw [schedStep, hs']
    simp
  · intro es hes
    rw [hstop, schedRun_fires_noop _ rfl es hes]

/-- Witness for C5 at a concrete idle state and fire sequence. -/
theorem scheduler_start_stop_cycles_witness :
    ((⟨none, 0, 0⟩ : SchedulerState).mutating = none) ∧
      ((schedStep ⟨none, 0, 0⟩ SchedEvent.mutateClick).cycles = 0 + 1 ∧
        (schedStep ⟨none, 0, 0⟩ SchedEvent.mutateClick).mutating = some (0, 200) ∧
        (∀ s' : SchedulerState, ∀ id period : ℕ,
          s'.mutating = some (id, period) →
          (schedStep s' (SchedEvent.intervalFire id)).cycles = s'.cycles + 1) ∧
        (schedRun ⟨none, 0, 0⟩
            [SchedEvent.mutateClick, SchedEvent.mutateClick]).cycles = 0 + 1 ∧
        (schedRun ⟨none, 0, 0⟩
            [SchedEvent.mutateClick, SchedEvent.mutateClick]).mutating = none ∧
        (∀ es : List SchedEvent,
          (∀ e ∈ es, ∃ id, e = SchedEvent.intervalFire id) →
          (schedRun (schedRun ⟨none, 0, 0⟩
              [SchedEvent.mutateClick, SchedEvent.mutateClick]) es).cycles
            = 0 + 1)) :=
  ⟨rfl, scheduler_start_stop_cycles ⟨none, 0, 0⟩ rfl⟩

end Scheduler

section Startup

/-- The JS values relevant to the startup check in the `$(document).ready`
handler. -/
inductive JSVal
  | undef
  | str (s : String)
  | audioCtxObj
  deriving DecidableEq

/-- JS strict equality `===` restricted to the modelled values: values of
different runtime types are never strictly equal; in particular an object is
never `===` to a string. -/
def strictEq : JSVal → JSVal → Bool
  | JSVal.undef, JSVal.undef => true
  | JSVal.str a, JSVal.str b => a == b
  | JSVal.audioCtxObj, JSVal.audioCtxObj => true
  | _, _ => false

/-- `new f()`: calling `new` on `undefined` throws a `TypeError` before
anything else happens; calling it on a constructor yields the constructed
object. -/
def newCall : JSVal → Except String JSVal
  | JSVal.undef => Except.error "TypeError"
  | v => Except.ok v

/-- Observable outcome of the `$(document).ready` handler. -/
inductive InitOutcome
  | threw (e : String)
  /-- `$('#msg').text('Web Audio unsupported!')` was shown and the handler
  returned without further setup. -/
  | unsupportedMsg
  /-- The gain node was created and connected, the initial buffer generated
  and installed, the canvas drawn and the context suspended. -/
  | fullSetup
  deriving DecidableEq

/-- The `$(document).ready` handler of wavemutator.js:
`webaudio = new (window.AudioContext || window.webkitAudioContext)();`
then `if (webaudio === 'undefined') return $('#msg').text('Web Audio
unsupported!');`, else the remaining setup runs.  The environment flag says
whether `window.AudioContext || window.webkitAudioContext` is defined. -/
def initHandler (audioContextAvailable : Bool) : InitOutcome :=
  match newCall (if audioContextAvailable then JSVal.audioCtxObj else JSVal.undef) with
  | Except.error e => InitOutcome.threw e
  | Except.ok webaudio =>
      if strictEq webaudio (JSVal.str "undefined") then InitOutcome.unsupportedMsg
      else InitOutcome.fullSetup

/-- C9 is a code bug.  When the audio subsystem is absent, `new (undefined)()`
throws a `TypeError` *before* the guard runs, so the unsupported message is
never reported; moreover the guard compares the context object against the
string `'undefined'` (not `typeof` or `undefined` itself), so the
unsupported branch is unreachable in every environment. -/
theorem init_unsupported_never_reported :
    initHandler false = InitOutcome.threw "TypeError" ∧
      ∀ avail : Bool, initHandler avail ≠ InitOutcome.unsupportedMsg := by
  refine ⟨rfl, ?_⟩
  intro avail
  cases avail <;> decide

end Startup

section TotalVariationDefs

/-- The circular predecessor index `(n + i - 1) % n` used by `smoothify`. -/
def prevIdx (n i : ℕ) : ℕ := (n + i - 1) % n

/-- Total variation of `n` values read through `g`, with circular neighbours:
`∑ i, |g i - g ((n + i - 1) % n)|`. -/
def TVF (n : ℕ) (g : ℕ → ℝ) : ℝ :=
  ∑ i in Finset.range n, |g i - g (prevIdx n i)|

/-- Total variation of a buffer, following the spec: the sum over all indices
`i` of `|sample[i] - sample[i-1]|` with circular neighbours (the buffer loops,
and `smoothify` itself treats index `0`'s predecessor as the last index). -/
def totalVariation (b : List ℝ) : ℝ := TVF b.length (fun i => b.getD i 0)

/-- The values written by the in-place `smoothify` sweep *before* the last
index: `ySweepF x n i` is the value stored at index `i` once the loop has
passed it (for `i ≤ n - 2`); the previously updated value feeds the next
step. -/
def ySweepF (x : ℕ → ℝ) (n : ℕ) : ℕ → ℝ
  | 0 => (x (n - 1) + x 0 + x 1) / 3
  | i + 1 => (ySweepF x n i + x (i + 1) + x (i + 2)) / 3

/-- The full result of one in-place `smoothify` sweep over `n ≥ 2` values:
index `n - 1` additionally sees the already-updated values at `n - 2` and
`0`. -/
def yFull (x : ℕ → ℝ) (n i : ℕ) : ℝ :=
  if i < n - 1 then ySweepF x n i
  else (ySweepF x n (n - 2) + x (n - 1) + ySweepF x n 0) / 3

/-- The buffer contents mid-sweep: after the loop has processed indices
`< k`, index `i` holds the updated value when `i < k` and the original value
otherwise. -/
def passState (x : ℕ → ℝ) (n k i : ℕ) : ℝ := if i < k then yFull x n i else x i

/-- The value `smoothify`'s step `k` reads as `prev`. -/
def prevVal (x : ℕ → ℝ) (n k : ℕ) : ℝ :=
  if k = 0 then x (n - 1) else yFull x n (k - 1)

/-- The value `smoothify`'s step `k` reads as `next`. -/
def nextVal (x : ℕ → ℝ) (n k : ℕ) : ℝ :=
  if k < n - 1 then x (k + 1) else yFull x n 0

end TotalVariationDefs

section CircularIndex

theorem prevIdx_lt (n i : ℕ) (hn : 0 < n) : prevIdx n i < n :=
  Nat.mod_lt _ hn

theorem prevIdx_zero (n : ℕ) (hn : 1 ≤ n) : prevIdx n 0 = n - 1 := by
  rw [prevIdx]
  have h1 : n + 0 - 1 = n - 1 := by omega
  rw [h1]
  exact Nat.mod_eq_of_lt (by omega)

theorem prevIdx_pos (n k : ℕ) (hk1 : 1 ≤ k) (hk : k < n) : prevIdx n k = k - 1 := by
  rw [prevIdx]
  have h1 : n + k - 1 = n + (k - 1) := by omega
  rw [h1, Nat.add_mod_left]
  exact Nat.mod_eq_of_lt (by omega)

theorem succIdx_of_lt (n k : ℕ) (h : k + 1 < n) : (k + 1) % n = k + 1 :=
  Nat.mod_eq_of_lt h

theorem succIdx_last (n : ℕ) (hn : 0 < n) : (n - 1 + 1) % n = 0 := by
  have h1 : n - 1 + 1 = n := by omega
  rw [h1, Nat.mod_self]

theorem succIdx_ne (n k : ℕ) (hn : 2 ≤ n) (hk : k < n) : (k + 1) % n ≠ k := by
  rcases Nat.lt_or_ge (k + 1) n with h | h
  · rw [succIdx_of_lt n k h]; omega
  · have hk1 : k = n - 1 := by omega
    subst hk1
    rw [succIdx_last n (by omega)]
    omega

theorem prevIdx_ne (n k : ℕ) (hn : 2 ≤ n) (hk : k < n) : prevIdx n k ≠ k := by
  rcases Nat.eq_zero_or_pos k with rfl | hk1
  · rw [prevIdx_zero n (by omega)]; omega
  · rw [prevIdx_pos n k hk1 hk]; omega

theorem prevIdx_succIdx (n k : ℕ) (hn : 2 ≤ n) (hk : k < n) :
    prevIdx n ((k + 1) % n) = k := by
  rcases Nat.lt_or_ge (k + 1) n with h | h
  · rw [succIdx_of_lt n k h, prevIdx_pos n (k + 1) (by omega) h]
    omega
  · have hk1 : k = n - 1 := by omega
    subst hk1
    rw [succIdx_last n (by omega), prevIdx_zero n (by omega)]

theorem eq_succIdx_of_prevIdx_eq (n j k : ℕ) (hn : 2 ≤ n) (hj : j < n)
    (h : prevIdx n j = k) : j = (k + 1) % n := by
  have h1 : (prevIdx n j + 1) % n = j := by
    rcases Nat.eq_zero_or_pos j with rfl | hj1
    · rw [prevIdx_zero n (by omega), succIdx_last n (by omega)]
    · rw [prevIdx_pos n j hj1 hj]
      have h2 : j - 1 + 1 = j := by omega
      rw [h2]
      exact Nat.mod_eq_of_lt hj
  rw [← h, h1]

end CircularIndex

section KeyInequality

/-- Replacing the middle value `v` of a triple by the average `(P + v + N)/3`
never increases the two adjacent total-variation terms. -/
theorem keyIneq (P v N : ℝ) :
    |(P + v + N) / 3 - P| + |N - (P + v + N) / 3| ≤ |v - P| + |N - v| := by
  rcases abs_cases ((P + v + N) / 3 - P) with ⟨h1, _⟩ | ⟨h1, _⟩ <;>
  rcases abs_cases (N - (P + v + N) / 3) with ⟨h2, _⟩ | ⟨h2, _⟩ <;>
  rcases abs_cases (v - P) with ⟨h3, _⟩ | ⟨h3, _⟩ <;>
  rcases abs_cases (N - v) with ⟨h4, _⟩ | ⟨h4, _⟩ <;>
  rw [h1, h2, h3, h4] <;> linarith

/-- When `v` lies strictly outside the interval spanned by its neighbours,
averaging strictly decreases the two adjacent total-variation terms. -/
theorem keyIneqStrict (P v N : ℝ) (h : v < min P N ∨ max P N < v) :
    |(P + v + N) / 3 - P| + |N - (P + v + N) / 3| < |v - P| + |N - v| := by
  rcases le_total P N with hPN | hPN <;>
  [ rw [min_eq_left hPN, max_eq_right hPN] at h ;
    rw [min_eq_right hPN, max_eq_left hPN] at h] <;>
  rcases h with h | h <;>
  rcases abs_cases ((P + v + N) / 3 - P) with ⟨h1, _⟩ | ⟨h1, _⟩ <;>
  rcases abs_cases (N - (P + v + N) / 3) with ⟨h2, _⟩ | ⟨h2, _⟩ <;>
  rcases abs_cases (v - P) with ⟨h3, _⟩ | ⟨h3, _⟩ <;>
  rcases abs_cases (N - v) with ⟨h4, _⟩ | ⟨h4, _⟩ <;>
  rw [h1, h2, h3, h4] <;> linarith

end KeyInequality

section PassStateLemmas

variable (x : ℕ → ℝ) (n : ℕ)

theorem passState_zero (i : ℕ) : passState x n 0 i = x i := by
  rw [passState, if_neg (by omega)]

theorem passState_self (k : ℕ) : passState x n (k + 1) k = yFull x n k := by
  rw [passState, if_pos (by omega)]

theorem passState_at (k : ℕ) : passState x n k k = x k := by
  rw [passState, if_neg (by omega)]

theorem passState_eq_of_ne (k j : ℕ) (h : j ≠ k) :
    passState x n (k + 1) j = passState x n k j := by
  rcases Nat.lt_or_ge j k with hj | hj
  · rw [passState, if_pos (by omega), passState, if_pos hj]
  · rw [passState, if_neg (by omega), passState, if_neg (by omega)]

theorem passState_prevIdx (k : ℕ) (hn : 2 ≤ n) (hk : k < n) :
    passState x n k (prevIdx n k) = prevVal x n k := by
  rcases Nat.eq_zero_or_pos k with rfl | hk1
  · rw [prevIdx_zero n (by omega), passState, if_neg (by omega), prevVal, if_pos rfl]
  · rw [prevIdx_pos n k hk1 hk, passState, if_pos (by omega), prevVal,
      if_neg (by omega)]

theorem passState_nextIdx (k : ℕ) (hn : 2 ≤ n) (hk : k < n) :
    passState x n k ((k + 1) % n) = nextVal x n k := by
  rcases Nat.lt_or_ge k (n - 1) with h | h
  · rw [succIdx_of_lt n k (by omega), passState, if_neg (by omega), nextVal,
      if_pos h]
  · have hk1 : k = n - 1 := by omega
    subst hk1
    rw [succIdx_last n (by omega), passState, if_pos (by omega), nextVal,
      if_neg (by omega)]

/-- One sweep step is *tame* at `k` when the original value lies weakly
between the two neighbour values the step reads; a sweep is tame when every
step is. -/
def tamePass (x : ℕ → ℝ) (n : ℕ) : Prop :=
  ∀ k, k < n →
    min (prevVal x n k) (nextVal x n k) ≤ x k ∧
      x k ≤ max (prevVal x n k) (nextVal x n k)

/-- The value written by `smoothify`'s step `k` is the average of `prev`, the
original value, and `next`. -/
theorem yFull_step (k : ℕ) (hn : 2 ≤ n) (hk : k < n) :
    yFull x n k = (prevVal x n k + x k + nextVal x n k) / 3 := by
  rcases Nat.lt_or_ge k (n - 1) with h | h
  · rcases Nat.eq_zero_or_pos k with rfl | hk1
    · rw [yFull, if_pos h, prevVal, if_pos rfl, nextVal, if_pos h]
      rfl
    · obtain ⟨m, rfl⟩ := Nat.exists_eq_add_of_le hk1
      rw [yFull, if_pos h, prevVal, if_neg (by omega), nextVal, if_pos h]
      rw [yFull, if_pos (by omega)]
      have h1 : 1 + m = m + 1 := by omega
      rw [h1]
      show (ySweepF x n m + x (m + 1) + x (m + 2)) / 3 = _
      have h2 : m + 1 - 1 = m := by omega
      rw [h2]
  · have hk1 : k = n - 1 := by omega
    subst hk1
    rw [yFull, if_neg (by omega), prevVal, if_neg (by omega), nextVal,
      if_neg (by omega)]
    have h1 : n - 1 - 1 = n - 2 := by omega
    rw [h1, yFull, if_pos (by omega), yFull, if_pos (by omega)]

end PassStateLemmas

section SweepTV

/-- Executing sweep step `k` exchanges the two adjacent total-variation terms
around index `k` (everything else is untouched): an exact bookkeeping
identity. -/
theorem TVF_step (x : ℕ → ℝ) (n k : ℕ) (hn : 2 ≤ n) (hk : k < n) :
    TVF n (passState x n (k + 1))
        + (|x k - prevVal x n k| + |nextVal x n k - x k|)
      = TVF n (passState x n k)
        + (|yFull x n k - prevVal x n k| + |nextVal x n k - yFull x n k|) := by
  have hn0 : 0 < n := by omega
  have hi2k : (k + 1) % n ≠ k := succIdx_ne n k hn hk
  have hi2lt : (k + 1) % n < n := Nat.mod_lt _ hn0
  have hmemk : k ∈ Finset.range n := Finset.mem_range.mpr hk
  have hmemi2 : (k + 1) % n ∈ (Finset.range n).erase k :=
    Finset.mem_erase.mpr ⟨hi2k, Finset.mem_range.mpr hi2lt⟩
  have hsplit : ∀ g : ℕ → ℝ, TVF n g
      = |g k - g (prevIdx n k)| + (|g ((k + 1) % n) - g (prevIdx n ((k + 1) % n))|
          + ∑ j in ((Finset.range n).erase k).erase ((k + 1) % n),
              |g j - g (prevIdx n j)|) := by
    intro g
    rw [TVF, ← Finset.add_sum_erase _ _ hmemk, ← Finset.add_sum_erase _ _ hmemi2]
  have hprevi2 : prevIdx n ((k + 1) % n) = k := prevIdx_succIdx n k hn hk
  have hpk_ne : prevIdx n k ≠ k := prevIdx_ne n k hn hk
  have e1 : passState x n k k = x k := passState_at x n k
  have e2 : passState x n k (prevIdx n k) = prevVal x n k :=
    passState_prevIdx x n k hn hk
  have e3 : passState x n k ((k + 1) % n) = nextVal x n k :=
    passState_nextIdx x n k hn hk
  have f1 : passState x n (k + 1) k = yFull x n k := passState_self x n k
  have f2 : passState x n (k + 1) (prevIdx n k) = prevVal x n k := by
    rw [passState_eq_of_ne x n k _ hpk_ne, e2]
  have f3 : passState x n (k + 1) ((k + 1) % n) = nextVal x n k := by
    rw [passState_eq_of_ne x n k _ hi2k, e3]
  have hrest : ∑ j in ((Finset.range n).erase k).erase ((k + 1) % n),
        |passState x n (k + 1) j - passState x n (k + 1) (prevIdx n j)|
      = ∑ j in ((Finset.range n).erase k).erase ((k + 1) % n),
          |passState x n k j - passState x n k (prevIdx n j)| := by
    refine Finset.sum_congr rfl ?_
    intro j hj
    have hj1 := Finset.mem_erase.mp hj
    have hji2 : j ≠ (k + 1) % n := hj1.1
    have hj2 := Finset.mem_erase.mp hj1.2
    have hjk : j ≠ k := hj2.1
    have hjn : j < n := Finset.mem_range.mp hj2.2
    have hpj : prevIdx n j ≠ k := fun hcontra =>
      hji2 (eq_succIdx_of_prevIdx_eq n j k hn hjn hcontra)
    rw [passState_eq_of_ne x n k j hjk, passState_eq_of_ne x n k _ hpj]
  rw [hsplit (passState x n (k + 1)), hsplit (passState x n k), hprevi2,
    f1, f2, f3, e1, e2, e3, hrest]
  ring

/-- Each sweep step weakly decreases total variation. -/
theorem TVF_step_le (x : ℕ → ℝ) (n k : ℕ) (hn : 2 ≤ n) (hk : k < n) :
    TVF n (passState x n (k + 1)) ≤ TVF n (passState x n k) := by
  have hstep := TVF_step x n k hn hk
  have hkey := keyIneq (prevVal x n k) (x k) (nextVal x n k)
  rw [← yFull_step x n k hn hk] at hkey
  linarith

/-- A sweep step at a strict local extremum strictly decreases total
variation. -/
theorem TVF_step_lt (x : ℕ → ℝ) (n k : ℕ) (hn : 2 ≤ n) (hk : k < n)
    (houts : x k < min (prevVal x n k) (nextVal x n k) ∨
      max (prevVal x n k) (nextVal x n k) < x k) :
    TVF n (passState x n (k + 1)) < TVF n (passState x n k) := by
  have hstep := TVF_step x n k hn hk
  have hkey := keyIneqStrict (prevVal x n k) (x k) (nextVal x n k) houts
  rw [← yFull_step x n k hn hk] at hkey
  linarith

theorem TVF_chain (x : ℕ → ℝ) (n : ℕ) (hn : 2 ≤ n) :
    ∀ d a : ℕ, a + d ≤ n →
      TVF n (passState x n (a + d)) ≤ TVF n (passState x n a) := by
  intro d
  induction d with
  | zero => exact fun a _ => le_rfl
  | succ d ih =>
      intro a ha
      have h1 : TVF n (passState x n (a + d + 1)) ≤ TVF n (passState x n (a + d)) :=
        TVF_step_le x n (a + d) hn (by omega)
      exact le_trans h1 (ih a (by omega))

/-- A full sweep never increases total variation. -/
theorem pass_TV_le (x : ℕ → ℝ) (n : ℕ) (hn : 2 ≤ n) :
    TVF n (passState x n n) ≤ TVF n (passState x n 0) := by
  have h := TVF_chain x n hn n 0 (by omega)
  simpa using h

/-- A non-tame full sweep strictly decreases total variation. -/
theorem pass_TV_lt (x : ℕ → ℝ) (n : ℕ) (hn : 2 ≤ n) (hnt : ¬ tamePass x n) :
    TVF n (passState x n n) < TVF n (passState x n 0) := by
  have hex : ∃ k, k < n ∧ (x k < min (prevVal x n k) (nextVal x n k) ∨
      max (prevVal x n k) (nextVal x n k) < x k) := by
    by_contra hcon
    push_neg at hcon
    refine hnt (fun k hk => ?_)
    exact hcon k hk
  obtain ⟨k, hk, houts⟩ := hex
  have h1 : TVF n (passState x n n) ≤ TVF n (passState x n (k + 1)) := by
    have h := TVF_chain x n hn (n - (k + 1)) (k + 1) (by omega)
    have he : k + 1 + (n - (k + 1)) = n := by omega
    rw [he] at h
    exact h
  have h2 := TVF_step_lt x n k hn hk houts
  have h3 : TVF n (passState x n k) ≤ TVF n (passState x n 0) := by
    have h := TVF_chain x n hn k 0 (by omega)
    simpa using h
  linarith

end SweepTV

section TameConst

/-- All mid-sweep values stay below any bound dominating the inputs. -/
theorem ySweepF_le (x : ℕ → ℝ) (n : ℕ) (hn : 2 ≤ n) (M : ℝ)
    (hM : ∀ i, i < n → x i ≤ M) : ∀ i, i ≤ n - 2 → ySweepF x n i ≤ M := by
  intro i
  induction i with
  | zero =>
      intro _
      show (x (n - 1) + x 0 + x 1) / 3 ≤ M
      have h1 := hM (n - 1) (by omega)
      have h2 := hM 0 (by omega)
      have h3 := hM 1 (by omega)
      linarith
  | succ i ih =>
      intro hi
      show (ySweepF x n i + x (i + 1) + x (i + 2)) / 3 ≤ M
      have h1 := ih (by omega)
      have h2 := hM (i + 1) (by omega)
      have h3 := hM (i + 2) (by omega)
      linarith

/-- If a mid-sweep value attains the maximum `M` of the inputs, then the
averaging chain forces `x 0 = M` (maximum rigidity, propagated backwards). -/
theorem ySweepF_max_rigid (x : ℕ → ℝ) (n : ℕ) (hn : 2 ≤ n) (M : ℝ)
    (hM : ∀ i, i < n → x i ≤ M) :
    ∀ i, i ≤ n - 2 → ySweepF x n i = M → x 0 = M := by
  intro i
  induction i with
  | zero =>
      intro _ heq
      have h1 := hM (n - 1) (by omega)
      have h2 := hM 0 (by omega)
      have h3 := hM 1 (by omega)
      have h4 : (x (n - 1) + x 0 + x 1) / 3 = M := heq
      linarith
  | succ i ih =>
      intro hi heq
      have h1 : ySweepF x n i ≤ M := ySweepF_le x n hn M hM i (by omega)
      have h2 := hM (i + 1) (by omega)
      have h3 := hM (i + 2) (by omega)
      have h4 : (ySweepF x n i + x (i + 1) + x (i + 2)) / 3 = M := heq
      have h5 : ySweepF x n i = M := by linarith
      exact ih (by omega) h5

theorem ySweepF_neg (x : ℕ → ℝ) (n : ℕ) :
    ∀ i, ySweepF (fun j => -x j) n i = -ySweepF x n i := by
  intro i
  induction i with
  | zero =>
      show (-x (n - 1) + -x 0 + -x 1) / 3 = -((x (n - 1) + x 0 + x 1) / 3)
      ring
  | succ i ih =>
      show (ySweepF (fun j => -x j) n i + -x (i + 1) + -x (i + 2)) / 3 = _
      rw [ih]
      show _ = -((ySweepF x n i + x (i + 1) + x (i + 2)) / 3)
      ring

theorem yFull_neg (x : ℕ → ℝ) (n i : ℕ) :
    yFull (fun j => -x j) n i = -yFull x n i := by
  rw [yFull, yFull]
  split_ifs with h
  · exact ySweepF_neg x n i
  · rw [ySweepF_neg, ySweepF_neg]
    ring

theorem prevVal_neg (x : ℕ → ℝ) (n k : ℕ) :
    prevVal (fun j => -x j) n k = -prevVal x n k := by
  rw [prevVal, prevVal]
  split_ifs with h
  · rfl
  · exact yFull_neg x n (k - 1)

theorem nextVal_neg (x : ℕ → ℝ) (n k : ℕ) :
    nextVal (fun j => -x j) n k = -nextVal x n k := by
  rw [nextVal, nextVal]
  split_ifs with h
  · rfl
  · exact yFull_neg x n 0

theorem tamePass_neg (x : ℕ → ℝ) (n : ℕ) (ht : tamePass x n) :
    tamePass (fun j => -x j) n := by
  intro k hk
  obtain ⟨h1, h2⟩ := ht k hk
  rw [prevVal_neg, nextVal_neg]
  constructor
  · rw [min_neg_neg]
    exact neg_le_neg h2
  · rw [max_neg_neg]
    exact neg_le_neg h1

/-- In a tame sweep, the input maximum is already attained at index `0`:
either an interior drop from the maximum or the wrap-around step forces a
mid-sweep value to reach the maximum, and rigidity propagates it to `x 0`. -/
theorem tame_max (x : ℕ → ℝ) (n : ℕ) (hn : 2 ≤ n) (ht : tamePass x n) (M : ℝ)
    (hM : ∀ i, i < n → x i ≤ M) (j : ℕ) (hj : j < n) (hjM : x j = M) :
    x 0 = M := by
  by_cases hD : ∃ i, i ≤ n - 2 ∧ x i = M ∧ x (i + 1) < M
  · obtain ⟨i, hi, hxi, hxi1⟩ := hD
    cases i with
    | zero => exact hxi
    | succ m =>
        have h1 := (ht (m + 1) (by omega)).2
        have hprev : prevVal x n (m + 1) = ySweepF x n m := by
          rw [prevVal, if_neg (by omega)]
          have hm : m + 1 - 1 = m := by omega
          rw [hm, yFull, if_pos (by omega)]
        have hnext : nextVal x n (m + 1) = x (m + 2) := by
          rw [nextVal, if_pos (by omega)]
        rw [hprev, hnext, hxi] at h1
        rcases le_max_iff.mp h1 with h2 | h2
        · have h3 : ySweepF x n m ≤ M := ySweepF_le x n hn M hM m (by omega)
          exact ySweepF_max_rigid x n hn M hM m (by omega) (le_antisymm h3 h2)
        · exact absurd h2 (not_le.mpr hxi1)
  · push_neg at hD
    have hclimb : ∀ i, j ≤ i → i ≤ n - 1 → x i = M := by
      intro i hji
      induction i, hji using Nat.le_induction with
      | base => exact fun _ => hjM
      | succ i hji ih =>
          intro hin
          have hxi : x i = M := ih (by omega)
          have h2 := hD i (by omega) hxi
          exact le_antisymm (hM (i + 1) (by omega)) h2
    have hxn1 : x (n - 1) = M := hclimb (n - 1) (by omega) le_rfl
    have h1 := (ht (n - 1) (by omega)).2
    have hprev : prevVal x n (n - 1) = ySweepF x n (n - 2) := by
      rw [prevVal, if_neg (by omega)]
      have hm : n - 1 - 1 = n - 2 := by omega
      rw [hm, yFull, if_pos (by omega)]
    have hnext : nextVal x n (n - 1) = ySweepF x n 0 := by
      rw [nextVal, if_neg (by omega), yFull, if_pos (by omega)]
    rw [hprev, hnext, hxn1] at h1
    rcases le_max_iff.mp h1 with h2 | h2
    · exact ySweepF_max_rigid x n hn M hM (n - 2) (by omega)
        (le_antisymm (ySweepF_le x n hn M hM (n - 2) (by omega)) h2)
    · exact ySweepF_max_rigid x n hn M hM 0 (by omega)
        (le_antisymm (ySweepF_le x n hn M hM 0 (by omega)) h2)

/-- A tame sweep only happens on a constant buffer. -/
theorem tame_const (x : ℕ → ℝ) (n : ℕ) (hn : 2 ≤ n) (ht : tamePass x n) :
    ∀ i, i < n → x i = x 0 := by
  obtain ⟨j, hjmem, hjmax⟩ :=
    Finset.exists_max_image (Finset.range n) x
      ⟨0, Finset.mem_range.mpr (by omega)⟩
  obtain ⟨j', hj'mem, hj'max⟩ :=
    Finset.exists_max_image (Finset.range n) (fun i => -x i)
      ⟨0, Finset.mem_range.mpr (by omega)⟩
  have hmax : x 0 = x j :=
    tame_max x n hn ht (x j) (fun i hi => hjmax i (Finset.mem_range.mpr hi)) j
      (Finset.mem_range.mp hjmem) rfl
  have hmin : -x 0 = -x j' :=
    tame_max (fun i => -x i) n hn (tamePass_neg x n ht) (-x j')
      (fun i hi => hj'max i (Finset.mem_range.mpr hi)) j'
      (Finset.mem_range.mp hj'mem) rfl
  intro i hi
  have h1 : x i ≤ x j := hjmax i (Finset.mem_range.mpr hi)
  have h2 : -x i ≤ -x j' := hj'max i (Finset.mem_range.mpr hi)
  linarith

end TameConst

section SmoothifyTV

theorem smoothify_length (l : List ℝ) : (smoothify l).length = l.length :=
  mutateLoop_length _ _

/-- The in-place `smoothify` loop computes exactly the sweep `passState …
l.length`: after the whole loop, index `j` holds `yFull X n j` where `X` reads
the original list. -/
theorem smoothify_getD (l : List ℝ) (hn : 2 ≤ l.length) :
    ∀ j, j < l.length →
      (smoothify l).getD j 0
        = passState (fun i => l.getD i 0) l.length l.length j := by
  have aux : ∀ k, k ≤ l.length →
      ((List.range k).foldl
          (fun b i => b.set i
            ((b.getD ((l.length + i - 1) % l.length) 0 + b.getD i 0
              + b.getD ((i + 1) % l.length) 0) / 3)) l).length = l.length ∧
      ∀ j, j < l.length →
        ((List.range k).foldl
            (fun b i => b.set i
              ((b.getD ((l.length + i - 1) % l.length) 0 + b.getD i 0
                + b.getD ((i + 1) % l.length) 0) / 3)) l).getD j 0
          = passState (fun i => l.getD i 0) l.length k j := by
    intro k
    induction k with
    | zero =>
        exact fun _ =>
          ⟨rfl, fun j _ => (passState_zero (fun i => l.getD i 0) l.length j).symm⟩
    | succ k ih =>
        intro hk1
        obtain ⟨ihlen, ihget⟩ := ih (by omega)
        have hk : k < l.length := by omega
        set bk := (List.range k).foldl
            (fun b i => b.set i
              ((b.getD ((l.length + i - 1) % l.length) 0 + b.getD i 0
                + b.getD ((i + 1) % l.length) 0) / 3)) l with hbk
        have hstep : (List.range (k + 1)).foldl
            (fun b i => b.set i
              ((b.getD ((l.length + i - 1) % l.length) 0 + b.getD i 0
                + b.getD ((i + 1) % l.length) 0) / 3)) l
            = bk.set k
                ((bk.getD ((l.length + k - 1) % l.length) 0 + bk.getD k 0
                  + bk.getD ((k + 1) % l.length) 0) / 3) := by
          rw [List.range_succ, List.foldl_append, ← hbk]
          rfl
        have h1 := ihget (prevIdx l.length k) (prevIdx_lt l.length k (by omega))
        have h2 := ihget k hk
        have h3 := ihget ((k + 1) % l.length) (Nat.mod_lt _ (by omega))
        rw [passState_prevIdx _ _ k hn hk] at h1
        rw [passState_at] at h2
        rw [passState_nextIdx _ _ k hn hk] at h3
        have hval : (bk.getD ((l.length + k - 1) % l.length) 0 + bk.getD k 0
              + bk.getD ((k + 1) % l.length) 0) / 3
            = yFull (fun i => l.getD i 0) l.length k := by
          rw [show bk.getD ((l.length + k - 1) % l.length) 0
              = bk.getD (prevIdx l.length k) 0 from rfl, h1, h2, h3]
          exact (yFull_step _ _ k hn hk).symm
        constructor
        · rw [hstep, List.length_set]
          exact ihlen
        · intro j hj
          rw [hstep]
          by_cases hjk : j = k
          · subst hjk
            rw [getD_set_self _ _ _ _ (by rw [ihlen]; exact hk), hval]
            exact (passState_self (fun i => l.getD i 0) l.length j).symm
          · rw [getD_set_ne _ _ _ _ _ (fun hc => hjk hc.symm), ihget j hj]
            exact (passState_eq_of_ne (fun i => l.getD i 0) l.length k j hjk).symm
  intro j hj
  exact (aux l.length le_rfl).2 j hj

theorem totalVariation_eq_TVF (l : List ℝ) :
    totalVariation l = TVF l.length (fun i => l.getD i 0) := rfl

theorem totalVariation_smoothify (l : List ℝ) (hn : 2 ≤ l.length) :
    totalVariation (smoothify l)
      = TVF l.length (passState (fun i => l.getD i 0) l.length l.length) := by
  rw [totalVariation, smoothify_length l, TVF, TVF]
  refine Finset.sum_congr rfl ?_
  intro i hi
  have hin : i < l.length := Finset.mem_range.mp hi
  rw [smoothify_getD l hn i hin,
    smoothify_getD l hn (prevIdx l.length i) (prevIdx_lt _ _ (by omega))]

theorem totalVariation_passState_zero (l : List ℝ) :
    TVF l.length (passState (fun i => l.getD i 0) l.length 0)
      = totalVariation l := by
  rw [totalVariation, TVF, TVF]
  refine Finset.sum_congr rfl ?_
  intro i _
  rw [passState_zero, passState_zero]

/-- Buffers of length at most one are fixed by `smoothify` (the single value
averages with itself). -/
theorem smoothify_short (l : List ℝ) (h : l.length ≤ 1) : smoothify l = l := by
  match l, h with
  | [], _ => rfl
  | [a], _ =>
      simp [smoothify, mutateLoop, List.range_succ]
      ring

/-- `smoothify` never increases circular total variation, for any buffer. -/
theorem smoothify_TV_le_all (l : List ℝ) :
    totalVariation (smoothify l) ≤ totalVariation l := by
  rcases le_or_lt l.length 1 with h | h
  · rw [smoothify_short l h]
  · have hn : 2 ≤ l.length := h
    rw [totalVariation_smoothify l hn, ← totalVariation_passState_zero l]
    exact pass_TV_le _ _ hn

/-- `smoothify` strictly decreases circular total variation on every
non-constant buffer of length at least two. -/
theorem smoothify_TV_lt (l : List ℝ) (hn : 2 ≤ l.length)
    (hnc : ∃ i, i < l.length ∧ l.getD i 0 ≠ l.getD 0 0) :
    totalVariation (smoothify l) < totalVariation l := by
  rw [totalVariation_smoothify l hn, ← totalVariation_passState_zero l]
  refine pass_TV_lt _ _ hn ?_
  intro ht
  obtain ⟨i, hi, hne⟩ := hnc
  exact hne (tame_const _ _ hn ht i hi)

/-- If a sweep's output is constant then its input already was. -/
theorem yFull_const (x : ℕ → ℝ) (n : ℕ) (hn : 2 ≤ n) (c : ℝ)
    (hc : ∀ j, j < n → yFull x n j = c) : ∀ i, i < n → x i = c := by
  have hy0 : ySweepF x n 0 = c := by
    have h := hc 0 (by omega)
    rw [yFull, if_pos (by omega)] at h
    exact h
  have hyn2 : ySweepF x n (n - 2) = c := by
    have h := hc (n - 2) (by omega)
    rw [yFull, if_pos (by omega)] at h
    exact h
  have hxn1 : x (n - 1) = c := by
    have h := hc (n - 1) (by omega)
    rw [yFull, if_neg (by omega), hyn2, hy0] at h
    linarith
  have hmid : ∀ m, m + 1 ≤ n - 2 → x (m + 1) + x (m + 2) = 2 * c := by
    intro m hm
    have h1 := hc (m + 1) (by omega)
    rw [yFull, if_pos (by omega)] at h1
    have h2 : ySweepF x n m = c := by
      have h := hc m (by omega)
      rw [yFull, if_pos (by omega)] at h
      exact h
    have h3 : (ySweepF x n m + x (m + 1) + x (m + 2)) / 3 = c := h1
    rw [h2] at h3
    linarith
  have hdesc : ∀ d i, i = n - 1 - d → 1 ≤ i → x i = c := by
    intro d
    induction d with
    | zero =>
        intro i hi _
        subst hi
        exact hxn1
    | succ d ih =>
        intro i hi h1i
        obtain ⟨m, rfl⟩ : ∃ m, i = m + 1 := ⟨i - 1, by omega⟩
        have hx1 : x (m + 2) = c := ih (m + 2) (by omega) (by omega)
        have h2 := hmid m (by omega)
        rw [hx1] at h2
        linarith
  have hge1 : ∀ i, 1 ≤ i → i < n → x i = c :=
    fun i h1 h2 => hdesc (n - 1 - i) i (by omega) h1
  have hx0 : x 0 = c := by
    have h2 : (x (n - 1) + x 0 + x 1) / 3 = c := hy0
    have h3 : x 1 = c := hge1 1 le_rfl (by omega)
    rw [hxn1, h3] at h2
    linarith
  intro i hi
  rcases Nat.eq_zero_or_pos i with rfl | h1
  · exact hx0
  · exact hge1 i h1 hi

/-- `smoothify` maps non-constant buffers to non-constant buffers. -/
theorem smoothify_nonconst (l : List ℝ) (hn : 2 ≤ l.length)
    (hnc : ∃ i, i < l.length ∧ l.getD i 0 ≠ l.getD 0 0) :
    ∃ i, i < (smoothify l).length ∧
      (smoothify l).getD i 0 ≠ (smoothify l).getD 0 0 := by
  by_contra hcon
  push_neg at hcon
  have hconst : ∀ j, j < l.length →
      yFull (fun i => l.getD i 0) l.length j
        = yFull (fun i => l.getD i 0) l.length 0 := by
    intro j hj
    have h1 := hcon j (by rw [smoothify_length]; exact hj)
    rw [smoothify_getD l hn j hj, smoothify_getD l hn 0 (by omega)] at h1
    rw [passState, if_pos hj, passState, if_pos (by omega)] at h1
    exact h1
  have hx := yFull_const (fun i => l.getD i 0) l.length hn
    (yFull (fun i => l.getD i 0) l.length 0) hconst
  obtain ⟨i, hi, hne⟩ := hnc
  exact hne ((hx i hi).trans (hx 0 (by omega)).symm)

/-- Iterating `smoothify` preserves length (≥ 2) and non-constancy. -/
theorem smoothify_iter (l : List ℝ) (hn : 2 ≤ l.length)
    (hnc : ∃ i, i < l.length ∧ l.getD i 0 ≠ l.getD 0 0) :
    ∀ k : ℕ, 2 ≤ (smoothify^[k] l).length ∧
      ∃ i, i < (smoothify^[k] l).length ∧
        (smoothify^[k] l).getD i 0 ≠ (smoothify^[k] l).getD 0 0 := by
  intro k
  induction k with
  | zero => exact ⟨hn, hnc⟩
  | succ k ih =>
      obtain ⟨ihlen, ihnc⟩ := ih
      rw [Function.iterate_succ_apply']
      refine ⟨?_, smoothify_nonconst _ ihlen ihnc⟩
      rw [smoothify_length]
      exact ihlen

end SmoothifyTV

section SmoothifySquare

/-- Counterexample to C8 as stated: the Square buffer generated at
`sampleRate = 5`, `freq = 2` is the constant buffer `[1, 1]` (both indices
fall below the float threshold `2.5 / 2`), and `smoothify` fixes it, so its
total variation (zero) is *not* strictly reduced. -/
theorem smoothify_square_tv_cex :
    ¬ (totalVariation (smoothify (audioBuffer 5 2 WaveKind.square rndZero))
        < totalVariation (audioBuffer 5 2 WaveKind.square rndZero)) := by
  have hfl : ⌊(5 : ℝ) / 2⌋ = 2 := by
    apply Int.floor_eq_iff.mpr
    constructor <;> norm_num
  have hb : audioBuffer 5 2 WaveKind.square rndZero = [1, 1] := by
    rw [audioBuffer_square, hfl]
    have hr : List.range ((2 : ℤ).toNat) = [0, 1] := rfl
    rw [hr]
    simp only [List.map_cons, List.map_nil]
    rw [if_pos (by push_cast; norm_num), if_pos (by push_cast; norm_num)]
  have hs : smoothify [(1 : ℝ), 1] = [1, 1] := by
    simp [smoothify, mutateLoop, List.range_succ]
    norm_num
  rw [hb, hs]
  exact lt_irrefl _

/-- C8 (amended).  For every generated Square buffer that actually contains a
`-1` sample (equivalently, a non-constant one — the generator can emit a
constant all-`+1` "square" buffer when every index of the truncated buffer
falls below the float half-period, e.g. at `sampleRate/freq = 2.5`), every
successive application of `smoothify` strictly reduces circular total
variation; and for every buffer whatsoever, `smoothify` never increases it. -/
theorem smoothify_square_total_variation (sampleRate freq : ℝ) (rnd : ℕ → ℝ)
    (hneg : ∃ i, i < (audioBuffer sampleRate freq WaveKind.square rnd).length ∧
      (audioBuffer sampleRate freq WaveKind.square rnd).getD i 0 = -1) :
    (∀ k : ℕ,
      totalVariation
          (smoothify^[k + 1] (audioBuffer sampleRate freq WaveKind.square rnd))
        < totalVariation
            (smoothify^[k] (audioBuffer sampleRate freq WaveKind.square rnd))) ∧
    ∀ b : List ℝ, totalVariation (smoothify b) ≤ totalVariation b := by
  obtain ⟨i, hi, hival⟩ := hneg
  have hlen : (audioBuffer sampleRate freq WaveKind.square rnd).length
      = (⌊sampleRate / freq⌋).toNat := by
    rw [audioBuffer_square, length_map_range]
  have hn1 : 1 ≤ (audioBuffer sampleRate freq WaveKind.square rnd).length := by
    omega
  have hL1 : (1 : ℝ) ≤ sampleRate / freq := by
    have h1 : (1 : ℤ) ≤ ⌊sampleRate / freq⌋ := by
      rw [hlen] at hn1
      omega
    exact_mod_cast Int.le_floor.mp h1
  have hgd0 : (audioBuffer sampleRate freq WaveKind.square rnd).getD 0 0 = 1 := by
    rw [audioBuffer_square]
    rw [getD_map_range _ _ 0 (by rw [hlen] at hn1; omega)]
    rw [if_pos (by push_cast; linarith)]
  have hnc : ∃ j, j < (audioBuffer sampleRate freq WaveKind.square rnd).length ∧
      (audioBuffer sampleRate freq WaveKind.square rnd).getD j 0
        ≠ (audioBuffer sampleRate freq WaveKind.square rnd).getD 0 0 :=
    ⟨i, hi, by rw [hival, hgd0]; norm_num⟩
  have hn2 : 2 ≤ (audioBuffer sampleRate freq WaveKind.square rnd).length := by
    rcases Nat.eq_zero_or_pos i with rfl | hipos
    · rw [hgd0] at hival
      norm_num at hival
    · omega
  constructor
  · intro k
    obtain ⟨hklen, hknc⟩ :=
      smoothify_iter (audioBuffer sampleRate freq WaveKind.square rnd) hn2 hnc k
    rw [Function.iterate_succ_apply']
    exact smoothify_TV_lt _ hklen hknc
  · exact smoothify_TV_le_all

/-- Witness for C8's amended statement at a concrete generated square
buffer. -/
theorem smoothify_square_total_variation_witness :
    (∃ i, i < (audioBuffer 6 2 WaveKind.square rndZero).length ∧
      (audioBuffer 6 2 WaveKind.square rndZero).getD i 0 = -1) ∧
    totalVariation (smoothify^[0 + 1] (audioBuffer 6 2 WaveKind.square rndZero))
      < totalVariation (smoothify^[0] (audioBuffer 6 2 WaveKind.square rndZero)) := by
  have hfl : ⌊(6 : ℝ) / 2⌋ = 3 := by
    apply Int.floor_eq_iff.mpr
    constructor <;> norm_num
  have hlen : (audioBuffer 6 2 WaveKind.square rndZero).length = 3 := by
    rw [audioBuffer_square, length_map_range, hfl]
    rfl
  have hval : (audioBuffer 6 2 WaveKind.square rndZero).getD 2 0 = -1 := by
    rw [audioBuffer_square]
    rw [getD_map_range _ _ 2 (by rw [hfl]; omega)]
    rw [if_neg (by push_cast; norm_num)]
  have hyp : ∃ i, i < (audioBuffer 6 2 WaveKind.square rndZero).length ∧
      (audioBuffer 6 2 WaveKind.square rndZero).getD i 0 = -1 :=
    ⟨2, by rw [hlen]; omega, hval⟩
  exact ⟨hyp, (smoothify_square_total_variation 6 2 rndZero hyp).1 0⟩

end SmoothifySquare
